import Mathlib

/-!
Verification of the cutting-stock optimization core of ST.py.

The embedding translates `greedy_cutting_optimization` (ST.py lines 49-121) and
`find_optimal_stock_length` (lines 124-138) into executable Lean definitions.

Modelling conventions:
* Python ints are `Nat` (all quantities in the program are nonnegative; every
  subtraction performed by the source is guarded so no truncation occurs, which
  the theorems below make precise).
* Python floats are modelled by `ℚ`.  The only float operations the source
  performs are true division, multiplication by 100, `:.2f` formatting and
  `float(...)` parsing of the formatted string; away from rounding-boundary
  ties (all values appearing in the concrete runs below are far from ties)
  IEEE doubles and exact rationals agree on every comparison and on the
  rendered 2-decimal string.
* A raised Python exception (`ZeroDivisionError`) is a `Crash`, distinct from
  the explicit `(None, message)` error returns, which are `ErrMsg` values.
* The `while` loop of the optimizer is embedded with an explicit fuel counter,
  initialised to the total remaining quantity; `Crash.fuelOut` marks fuel
  exhaustion and is proved unreachable (each iteration cuts at least one
  piece), so the fueled function computes exactly the source's loop.
-/

set_option linter.unusedVariables false

namespace ST

/-- A raised Python exception: `ZeroDivisionError`, or the fuel-exhaustion
marker of the embedded while loop (proved unreachable at the chosen fuel). -/
inductive Crash where
  | zeroDiv
  | fuelOut
deriving DecidableEq, Repr

/-- The explicit `(None, message)` error returns of the source.
`oversized l s` is the message at ST.py line 53 reporting demand length l
and stock length s; `infeasible` is the message at line 80; `noFeasible`
is the message at line 135. -/
inductive ErrMsg where
  | oversized (demandLen stockLen : ℕ)
  | infeasible
  | noFeasible
deriving DecidableEq, Repr

/-- The caller-supplied demand dict, as its (length, quantity) items in
iteration order.  Dict keys are unique, hence the Nodup hypotheses below. -/
abbrev DemandSet := List (ℕ × ℕ)

/-- One record of the working list built at ST.py lines 55-56:
a fresh dict with the length and the remaining quantity. -/
structure DemandRec where
  length : ℕ
  quantity : ℕ
deriving DecidableEq, Repr, Inhabited

/-- Insertion into a sorted list, placing the new element before the first
element it compares le to; `insSortBy` below is therefore a stable sort, and
stable sorts with the same key order produce identical outputs, so this
computes exactly what Python's stable `list.sort(key=...)` computes. -/
def insertSorted (le : α → α → Bool) (x : α) : List α → List α
  | [] => [x]
  | y :: ys => if le x y then x :: y :: ys else y :: insertSorted le x ys

/-- Stable insertion sort; models Python's stable `list.sort(key=...)`. -/
def insSortBy (le : α → α → Bool) (l : List α) : List α :=
  l.foldr (insertSorted le) []

/-- Python dict assignment `d[k] = v`: overwrite the entry for k if present,
otherwise append the new entry (dicts preserve insertion order). -/
def dictInsert (k v : ℕ) : List (ℕ × ℕ) → List (ℕ × ℕ)
  | [] => [(k, v)]
  | e :: es => if e.1 = k then (k, v) :: es else e :: dictInsert k v es

/-- Dict lookup with default 0: the count of pieces of length L in a pattern. -/
def plook (L : ℕ) : List (ℕ × ℕ) → ℕ
  | [] => 0
  | e :: es => if e.1 = L then e.2 else plook L es

/-- Total material length consumed by a pattern: Σ length × count. -/
def sumLC (pat : List (ℕ × ℕ)) : ℕ :=
  (pat.map fun e => e.1 * e.2).sum

/-- Sum of the remaining quantities of the working records. -/
def sumQty (dl : List DemandRec) : ℕ :=
  (dl.map fun d => d.quantity).sum

/-- Total remaining quantity of pieces of length L in the working records. -/
def qtyOf (L : ℕ) (dl : List DemandRec) : ℕ :=
  (dl.map fun d => if d.length = L then d.quantity else 0).sum

/-- One pass of the inner placement loop (ST.py lines 67-77).  Threads the
current unit's remaining length and its pattern dict through the working
records, returning the final remaining length, the unit's pattern, and the
updated records.  A record with length 0 and positive quantity makes
`math.floor(remaining_length / demand.length)` raise `ZeroDivisionError`. -/
def cutUnit : ℕ → List (ℕ × ℕ) → List DemandRec → Except Crash (ℕ × List (ℕ × ℕ) × List DemandRec)
  | remaining, pat, [] => .ok (remaining, pat, [])
  | remaining, pat, d :: ds =>
    if d.quantity = 0 ∨ remaining < d.length then
      match cutUnit remaining pat ds with
      | .error c => .error c
      | .ok (r, p, ds') => .ok (r, p, d :: ds')
    else if d.length = 0 then
      .error .zeroDiv
    else
      let actualCount := min (remaining / d.length) d.quantity
      if 0 < actualCount then
        match cutUnit (remaining - actualCount * d.length) (dictInsert d.length actualCount pat) ds with
        | .error c => .error c
        | .ok (r, p, ds') => .ok (r, p, { d with quantity := d.quantity - actualCount } :: ds')
      else
        match cutUnit remaining pat ds with
        | .error c => .error c
        | .ok (r, p, ds') => .ok (r, p, d :: ds')

/-- One entry of the internal `cutting_plans` list (ST.py lines 92-97). -/
structure PlanEntry where
  pattern : List (ℕ × ℕ)
  count : ℕ
  utilization : ℚ
  waste : ℕ
deriving DecidableEq, Repr, Inhabited

/-- Merging the unit just cut into the plan list (ST.py lines 85-97): if an
entry with a dict-equal pattern exists, increment its count, else append a
new entry with count 1.  Python dict equality is key-by-key and the pattern
dicts never hold duplicate keys, so it is list permutation. -/
def addPattern : List PlanEntry → List (ℕ × ℕ) → ℚ → ℕ → List PlanEntry
  | [], pat, util, waste => [⟨pat, 1, util, waste⟩]
  | p :: ps, pat, util, waste =>
    if p.pattern.Perm pat then
      { p with count := p.count + 1 } :: ps
    else
      p :: addPattern ps pat util waste

/-- The accumulators of the while loop (ST.py lines 59-61). -/
structure LoopState where
  plans : List PlanEntry
  totalStockUsed : ℕ
  totalUsedLength : ℕ
deriving DecidableEq, Repr, Inhabited

/-- The while loop at ST.py lines 63-100, with explicit fuel.  Each iteration
starts a fresh stock unit, runs the placement pass, fails with the
`infeasible` message if the unit's pattern stayed empty, else records the
unit (utilization at line 83 is float division, here exact ℚ; the divisor
stock_length is positive whenever this point is reached, since a nonempty
pattern holds a piece of positive length). -/
def greedyLoop (stock : ℕ) : ℕ → List DemandRec → LoopState → Except Crash (Except ErrMsg LoopState)
  | 0, dl, st =>
    if dl.any fun d => 0 < d.quantity then .error .fuelOut else .ok (.ok st)
  | fuel + 1, dl, st =>
    if dl.any fun d => 0 < d.quantity then
      match cutUnit stock [] dl with
      | .error c => .error c
      | .ok (remaining, pat, dl') =>
        if pat = [] then .ok (.error .infeasible)
        else
          let patternUsedLength := stock - remaining
          let utilization : ℚ := (patternUsedLength : ℚ) / (stock : ℚ) * 100
          greedyLoop stock fuel dl'
            { plans := addPattern st.plans pat utilization remaining
              totalStockUsed := st.totalStockUsed + 1
              totalUsedLength := st.totalUsedLength + patternUsedLength }
    else .ok (.ok st)

/-- The numeric outcome of `greedy_cutting_optimization` up to ST.py line 103,
before the string formatting at lines 105-121: the internal plan entries and
the numeric totals (`total_utilization_q` is the float local of line 102). -/
structure CoreResult where
  plans : List PlanEntry
  total_stock_used : ℕ
  total_used_length : ℕ
  total_utilization_q : ℚ
  total_waste : ℕ
deriving DecidableEq, Repr, Inhabited

/-- ST.py lines 55-57: the working copy of the demand dict, a list of fresh
records sorted by length descending (Python's stable sort with key
-length). -/
def workingList (demands : DemandSet) : List DemandRec :=
  insSortBy (fun a b => decide (b.length ≤ a.length))
    (demands.map fun p => DemandRec.mk p.1 p.2)

/-- ST.py lines 49-103: the oversize precheck (lines 51-53, returning on the
first demand length exceeding the stock length in dict iteration order), the
working-copy construction and descending sort (lines 55-57), the while loop,
and the aggregate computations (lines 102-103).  `total_stock_used = 0`
(possible only when no record has positive quantity) makes line 102 raise
`ZeroDivisionError`.  The fuel is the total quantity, which the termination
theorem below proves is never exhausted. -/
def greedyCore (stock : ℕ) (demands : DemandSet) : Except Crash (Except ErrMsg CoreResult) :=
  match demands.find? fun p => decide (stock < p.1) with
  | some p => .ok (.error (.oversized p.1 stock))
  | none =>
    match greedyLoop stock (sumQty (workingList demands)) (workingList demands) ⟨[], 0, 0⟩ with
    | .error c => .error c
    | .ok (.error e) => .ok (.error e)
    | .ok (.ok st) =>
      if st.totalStockUsed * stock = 0 then .error .zeroDiv
      else
        .ok (.ok
          { plans := st.plans
            total_stock_used := st.totalStockUsed
            total_used_length := st.totalUsedLength
            total_utilization_q :=
              (st.totalUsedLength : ℚ) / ((st.totalStockUsed * stock : ℕ) : ℚ) * 100
            total_waste := st.totalStockUsed * stock - st.totalUsedLength })

/-- Two-digit zero padding of the fractional part of a percentage. -/
def padTwo (n : ℕ) : String :=
  if n < 10 then "0" ++ toString n else toString n

/-- The integer number of hundredths rendered by CPython's `:.2f` formatting:
rounding to the nearest hundredth (modelled as round-half-up; every value
formatted in this development is far from a half-way tie, where double
rounding modes could differ from the exact rational). -/
def format2 (x : ℚ) : ℤ :=
  ⌊x * 100 + 1 / 2⌋

/-- The string produced for a percentage x by the f-string
`"{x:.2f}%"` (ST.py lines 112 and 119); x is nonnegative in every run. -/
def pctString (x : ℚ) : String :=
  let c := (format2 x).toNat
  s!"{c / 100}.{padTwo (c % 100)}%"

/-- One formatted entry of the returned `cutting_plans` (ST.py lines 109-114). -/
structure FormattedPlan where
  pattern_desc : String
  count : ℕ
  utilization : String
  waste : ℕ
deriving DecidableEq, Repr, Inhabited

/-- ST.py lines 106-114: the per-entry formatting, joining the pattern items
in insertion order and rendering the utilization as a 2-decimal string. -/
def formatPlan (p : PlanEntry) : FormattedPlan :=
  { pattern_desc := String.intercalate " + " (p.pattern.map fun e => s!"{e.2}×{e.1}mm")
    count := p.count
    utilization := pctString p.utilization
    waste := p.waste }

/-- The dict returned at ST.py lines 116-121.  Note both utilization fields
are pre-formatted strings, not numbers. -/
structure OptResult where
  cutting_plans : List FormattedPlan
  total_stock_used : ℕ
  total_utilization : String
  total_waste : ℕ
deriving DecidableEq, Repr, Inhabited

/-- The formatting step, ST.py lines 105-121. -/
def formatResult (c : CoreResult) : OptResult :=
  { cutting_plans := c.plans.map formatPlan
    total_stock_used := c.total_stock_used
    total_utilization := pctString c.total_utilization_q
    total_waste := c.total_waste }

/-- `greedy_cutting_optimization` (ST.py lines 49-121): the numeric core
followed by the formatting of the returned dict. -/
def greedy_cutting_optimization (stock : ℕ) (demands : DemandSet) :
    Except Crash (Except ErrMsg OptResult) :=
  match greedyCore stock demands with
  | .error c => .error c
  | .ok (.error e) => .ok (.error e)
  | .ok (.ok c) => .ok (.ok (formatResult c))

/-- One element of the search's result list (ST.py line 132):
the stock length under evaluation together with the optimizer's dict. -/
structure SearchResult where
  stock_length : ℕ
  res : OptResult
deriving DecidableEq, Repr, Inhabited

/-- Python `str.strip(chars)`: remove leading and trailing characters '%'. -/
def stripPct (s : String) : String :=
  String.mk (((s.data.dropWhile fun ch => ch == '%').reverse.dropWhile
    fun ch => ch == '%').reverse)

/-- Numeric value of a decimal-digit string. -/
def parseNatDigits (cs : List Char) : ℕ :=
  cs.foldl (fun acc ch => acc * 10 + (ch.toNat - '0'.toNat)) 0

/-- Split a character list at the first '.' into integer and fractional
digits (the formatted strings hold at most one dot; absent a dot the
fractional part is empty). -/
def splitAtDot : List Char → List Char × List Char
  | [] => ([], [])
  | ch :: cs =>
    if ch = '.' then ([], cs)
    else
      let (a, b) := splitAtDot cs
      (ch :: a, b)

/-- Python `float(s)` on the nonnegative decimal strings produced by the
formatting above ("93.42" and the like), as an exact rational. -/
def parseFloat (s : String) : ℚ :=
  let (a, b) := splitAtDot s.data
  (parseNatDigits a : ℚ) + (parseNatDigits b : ℚ) / (10 : ℚ) ^ b.length

/-- The sort key comparison at ST.py line 137:
`key=lambda x: (-float(x.total_utilization.strip('%')), x.total_stock_used)`,
i.e. parsed (rounded) utilization descending, then stock used ascending. -/
def pUtil (r : SearchResult) : ℚ :=
  parseFloat (stripPct r.res.total_utilization)

/-- a precedes-or-ties b in the ranking order of ST.py line 137. -/
def searchKeyLe (a b : SearchResult) : Prop :=
  pUtil b < pUtil a ∨ (pUtil a = pUtil b ∧ a.res.total_stock_used ≤ b.res.total_stock_used)

instance (a b : SearchResult) : Decidable (searchKeyLe a b) := by
  unfold searchKeyLe; infer_instance

/-- Python `range(start, stop, step)` for positive step (the source always
passes a positive step; step 0 would raise ValueError). -/
def pyRange (start stop step : ℕ) : List ℕ :=
  List.range' start ((stop - start + step - 1) / step) step

/-- The candidate scan of ST.py lines 128-132: run the optimizer on a copy of
the demand dict (`demands.copy()`, value-identical to `demands`) for each
candidate length; an explicit error return is discarded (`if result:` is
false only for None), a raised exception propagates out of the search. -/
def collectResults (demands : DemandSet) : List ℕ → Except Crash (List SearchResult)
  | [] => .ok []
  | L :: Ls =>
    match greedy_cutting_optimization L demands with
    | .error c => .error c
    | .ok (.error e) => collectResults demands Ls
    | .ok (.ok r) =>
      match collectResults demands Ls with
      | .error c => .error c
      | .ok rs => .ok (⟨L, r⟩ :: rs)

/-- `find_optimal_stock_length` (ST.py lines 124-138): scan the inclusive
range, fail with the no-feasible-plan message if nothing was collected, else
return the stable sort by the key of line 137. -/
def find_optimal_stock_length (demands : DemandSet) (minL maxL stepL : ℕ) :
    Except Crash (Except ErrMsg (List SearchResult)) :=
  match collectResults demands (pyRange minL (maxL + 1) stepL) with
  | .error c => .error c
  | .ok results =>
    if results = [] then .ok (.error .noFeasible)
    else .ok (.ok (insSortBy (fun a b => decide (searchKeyLe a b)) results))

/-- Total number of pieces of length L delivered by a plan:
Σ repeat_count × (count of L in the entry's pattern) over all plan entries. -/
def suppliedTo (plans : List PlanEntry) (L : ℕ) : ℕ :=
  (plans.map fun p => p.count * plook L p.pattern).sum

/-- The invariant of every stored plan entry: its waste and its pattern's
consumed length partition the stock length, and its pattern dict has unique
keys. -/
def EntryInv (stock : ℕ) (e : PlanEntry) : Prop :=
  e.waste + sumLC e.pattern = stock ∧ (e.pattern.map Prod.fst).Nodup

/-- The numeric core outcome of a feasible run (the default record
otherwise); lets feasibility be stated without an existential. -/
def coreOut (stock : ℕ) (demands : DemandSet) : CoreResult :=
  match greedyCore stock demands with
  | .ok (.ok c) => c
  | _ => default

/-- The internal (line 102) numeric total utilization of a feasible run. -/
def coreUtilQ (stock : ℕ) (demands : DemandSet) : Option ℚ :=
  match greedyCore stock demands with
  | .ok (.ok c) => some c.total_utilization_q
  | _ => none

/-- The total_utilization field the optimizer actually returns to its caller. -/
def retTotalUtil (stock : ℕ) (demands : DemandSet) : Option String :=
  match greedy_cutting_optimization stock demands with
  | .ok (.ok r) => some r.total_utilization
  | _ => none

/-- The ranked list a successful search returns (empty otherwise). -/
def searchOut (demands : DemandSet) (minL maxL stepL : ℕ) : List SearchResult :=
  match find_optimal_stock_length demands minL maxL stepL with
  | .ok (.ok rs) => rs
  | _ => []

/-- The stock lengths of a successful search's ranked list, in rank order. -/
def searchLengths (demands : DemandSet) (minL maxL stepL : ℕ) : Option (List ℕ) :=
  match find_optimal_stock_length demands minL maxL stepL with
  | .ok (.ok rs) => some (rs.map fun r => r.stock_length)
  | _ => none

/-- The demand length reported by the oversize precheck (lines 51-53): the
first length in dict iteration order exceeding the stock length. -/
def firstOversized (stock : ℕ) (demands : DemandSet) : ℕ :=
  match demands.find? fun p => decide (stock < p.1) with
  | some p => p.1
  | none => 0

/-- A call to the optimizer, paired with the post-call value of the caller's
demand dict.  Every write the source performs (line 77) targets a record of
demand_list, which is built at lines 55-56 from fresh dict literals; no
statement assigns to the caller's dict or its entries, so its post-call
value is its input value. -/
def greedyCall (stock : ℕ) (demands : DemandSet) :
    Except Crash (Except ErrMsg OptResult) × DemandSet :=
  (greedy_cutting_optimization stock demands, demands)

/-- A call to the search, paired with the post-call value of the caller's
demand dict: the search hands each optimizer run a fresh copy (line 129)
and performs no write to the caller's dict. -/
def searchCall (demands : DemandSet) (minL maxL stepL : ℕ) :
    Except Crash (Except ErrMsg (List SearchResult)) × DemandSet :=
  (find_optimal_stock_length demands minL maxL stepL, demands)

/-! ### Lemmas about the sorting, dict and summation helpers -/

theorem insertSorted_perm (le : α → α → Bool) (x : α) (l : List α) :
    (insertSorted le x l).Perm (x :: l) := by
  induction l with
  | nil => exact List.Perm.refl _
  | cons y ys ih =>
    rw [insertSorted]
    split
    · exact List.Perm.refl _
    · exact (ih.cons y).trans (List.Perm.swap x y ys)

theorem insSortBy_perm (le : α → α → Bool) (l : List α) :
    (insSortBy le l).Perm l := by
  induction l with
  | nil => exact List.Perm.refl _
  | cons a l ih => exact (insertSorted_perm le a (insSortBy le l)).trans (ih.cons a)

theorem pairwise_insertSorted {R : α → α → Prop} [DecidableRel R]
    (total : ∀ a b, R a b ∨ R b a) (htrans : ∀ a b c, R a b → R b c → R a c)
    (x : α) (l : List α) (hl : l.Pairwise R) :
    (insertSorted (fun a b => decide (R a b)) x l).Pairwise R := by
  induction l with
  | nil => simp [insertSorted]
  | cons y ys ih =>
    rcases List.pairwise_cons.mp hl with ⟨hy, hys⟩
    rw [insertSorted]
    split
    case isTrue h =>
      rw [decide_eq_true_eq] at h
      refine List.pairwise_cons.mpr ⟨?_, hl⟩
      intro a ha
      rcases List.mem_cons.mp ha with rfl | ha
      · exact h
      · exact htrans x y a h (hy a ha)
    case isFalse h =>
      rw [decide_eq_true_eq] at h
      have hyx : R y x := (total x y).resolve_left h
      refine List.pairwise_cons.mpr ⟨?_, ih hys⟩
      intro a ha
      have hmem := (insertSorted_perm (fun a b => decide (R a b)) x ys).mem_iff.mp ha
      rcases List.mem_cons.mp hmem with rfl | ha'
      · exact hyx
      · exact hy a ha'

theorem pairwise_insSortBy {R : α → α → Prop} [DecidableRel R]
    (total : ∀ a b, R a b ∨ R b a) (htrans : ∀ a b c, R a b → R b c → R a c)
    (l : List α) :
    (insSortBy (fun a b => decide (R a b)) l).Pairwise R := by
  induction l with
  | nil => simp [insSortBy]
  | cons a l ih => exact pairwise_insertSorted total htrans a _ ih

theorem dictInsert_of_fresh (k v : ℕ) (p : List (ℕ × ℕ)) (h : k ∉ p.map Prod.fst) :
    dictInsert k v p = p ++ [(k, v)] := by
  induction p with
  | nil => rfl
  | cons e es ih =>
    simp only [List.map_cons, List.mem_cons, not_or] at h
    rw [dictInsert, if_neg (fun hh => h.1 hh.symm), ih h.2, List.cons_append]

theorem plook_eq_zero_of_not_mem (L : ℕ) (p : List (ℕ × ℕ))
    (h : L ∉ p.map Prod.fst) : plook L p = 0 := by
  induction p with
  | nil => rfl
  | cons e es ih =>
    simp only [List.map_cons, List.mem_cons, not_or] at h
    rw [plook, if_neg (fun hh => h.1 hh.symm), ih h.2]

theorem plook_append_single_self (k v : ℕ) (p : List (ℕ × ℕ))
    (h : k ∉ p.map Prod.fst) : plook k (p ++ [(k, v)]) = v := by
  induction p with
  | nil => simp [plook]
  | cons e es ih =>
    simp only [List.map_cons, List.mem_cons, not_or] at h
    rw [List.cons_append, plook, if_neg (fun hh => h.1 hh.symm), ih h.2]

theorem plook_append_single_ne (L k v : ℕ) (p : List (ℕ × ℕ)) (h : k ≠ L) :
    plook L (p ++ [(k, v)]) = plook L p := by
  induction p with
  | nil => simp [plook, h]
  | cons e es ih =>
    rw [List.cons_append, plook, plook]
    split
    · rfl
    · exact ih

theorem sumLC_append (p q : List (ℕ × ℕ)) : sumLC (p ++ q) = sumLC p + sumLC q := by
  simp [sumLC]

theorem plook_perm (L : ℕ) {p q : List (ℕ × ℕ)} (h : p.Perm q) :
    (p.map Prod.fst).Nodup → plook L p = plook L q := by
  induction h with
  | nil => intro _; rfl
  | cons x h ih =>
    intro hnd
    simp only [List.map_cons, List.nodup_cons] at hnd
    rw [plook, plook]
    split
    · rfl
    · exact ih hnd.2
  | swap x y l =>
    intro hnd
    simp only [List.map_cons, List.nodup_cons, List.mem_cons, not_or] at hnd
    have hxy : y.1 ≠ x.1 := hnd.1.1
    by_cases h1 : y.1 = L
    · by_cases h2 : x.1 = L
      · exact absurd (h1.trans h2.symm) hxy
      · simp [plook, h1, h2]
    · by_cases h2 : x.1 = L
      · simp [plook, h1, h2]
      · simp [plook, h1, h2]
  | trans h1 h2 ih1 ih2 =>
    intro hnd
    exact (ih1 hnd).trans (ih2 ((h1.map Prod.fst).nodup_iff.mp hnd))

theorem qtyOf_perm (L : ℕ) {dl dl' : List DemandRec} (h : dl.Perm dl') :
    qtyOf L dl = qtyOf L dl' := by
  unfold qtyOf
  exact (h.map fun d => if d.length = L then d.quantity else 0).sum_eq

theorem sumQty_perm {dl dl' : List DemandRec} (h : dl.Perm dl') :
    sumQty dl = sumQty dl' := by
  unfold sumQty
  exact (h.map fun d => d.quantity).sum_eq

theorem any_qty_iff (dl : List DemandRec) :
    (dl.any fun d => 0 < d.quantity) = true ↔ ∃ d ∈ dl, 0 < d.quantity := by
  simp [List.any_eq_true]

theorem sumQty_pos_iff (dl : List DemandRec) :
    0 < sumQty dl ↔ ∃ d ∈ dl, 0 < d.quantity := by
  induction dl with
  | nil => simp [sumQty]
  | cons d ds ih =>
    simp only [sumQty, List.map_cons, List.sum_cons] at *
    constructor
    · intro h
      by_cases hq : 0 < d.quantity
      · exact ⟨d, List.mem_cons_self d ds, hq⟩
      · have hs : 0 < (ds.map fun d => d.quantity).sum := by omega
        obtain ⟨x, hx, hx2⟩ := ih.mp hs
        exact ⟨x, List.mem_cons_of_mem d hx, hx2⟩
    · rintro ⟨x, hx, hx2⟩
      rcases List.mem_cons.mp hx with rfl | hx
      · omega
      · have := ih.mpr ⟨x, hx, hx2⟩
        omega

theorem sumQty_cons (d : DemandRec) (ds : List DemandRec) :
    sumQty (d :: ds) = d.quantity + sumQty ds := by
  simp [sumQty]

theorem qtyOf_cons (L : ℕ) (d : DemandRec) (ds : List DemandRec) :
    qtyOf L (d :: ds) = (if d.length = L then d.quantity else 0) + qtyOf L ds := by
  simp [qtyOf]

theorem qtyOf_eq_zero_of_all_zero {dl : List DemandRec}
    (h : ∀ d ∈ dl, d.quantity = 0) (L : ℕ) : qtyOf L dl = 0 := by
  refine List.sum_eq_zero ?_
  intro x hx
  obtain ⟨d, hd, rfl⟩ := List.mem_map.mp hx
  rw [h d hd]
  split <;> rfl

/-! ### Lemmas about the placement pass -/

theorem cutUnit_error_eq :
    ∀ (remaining : ℕ) (pat : List (ℕ × ℕ)) (dl : List DemandRec) {c : Crash},
    cutUnit remaining pat dl = .error c → c = .zeroDiv := by
  intro remaining pat dl
  induction dl generalizing remaining pat with
  | nil =>
    intro c h
    simp only [cutUnit] at h
    exact Except.noConfusion h
  | cons d ds ih =>
    intro c h
    simp only [cutUnit] at h
    split at h
    · split at h
      · rename_i heq
        injection h with h
        exact ih _ _ (h ▸ heq)
      · exact Except.noConfusion h
    · split at h
      · injection h with h
        exact h.symm
      · split at h
        · split at h
          · rename_i heq
            injection h with h
            exact ih _ _ (h ▸ heq)
          · exact Except.noConfusion h
        · split at h
          · rename_i heq
            injection h with h
            exact ih _ _ (h ▸ heq)
          · exact Except.noConfusion h

theorem cutUnit_ok_of_pos :
    ∀ (remaining : ℕ) (pat : List (ℕ × ℕ)) (dl : List DemandRec),
    (∀ d ∈ dl, 0 < d.length) →
    ∃ out, cutUnit remaining pat dl = .ok out := by
  intro remaining pat dl
  induction dl generalizing remaining pat with
  | nil => intro _; exact ⟨_, rfl⟩
  | cons d ds ih =>
    intro hpos
    have hd := hpos d (List.mem_cons_self d ds)
    have hds : ∀ d' ∈ ds, 0 < d'.length := fun d' h' => hpos d' (List.mem_cons_of_mem d h')
    simp only [cutUnit]
    split
    · obtain ⟨⟨r, p, ds'⟩, hout⟩ := ih remaining pat hds
      rw [hout]
      exact ⟨_, rfl⟩
    · split
      · rename_i h0
        omega
      · split
        · obtain ⟨⟨r, p, ds'⟩, hout⟩ := ih _ _ hds
          rw [hout]
          exact ⟨_, rfl⟩
        · obtain ⟨⟨r, p, ds'⟩, hout⟩ := ih _ _ hds
          rw [hout]
          exact ⟨_, rfl⟩

theorem cutUnit_basic :
    ∀ (remaining : ℕ) (pat : List (ℕ × ℕ)) (dl : List DemandRec)
    {r : ℕ} {pat' : List (ℕ × ℕ)} {dl' : List DemandRec},
    cutUnit remaining pat dl = .ok (r, pat', dl') →
    List.Forall₂ (fun d d' => d'.length = d.length ∧ d'.quantity ≤ d.quantity) dl dl' ∧
    sumQty dl' ≤ sumQty dl ∧
    (sumQty dl' = sumQty dl → pat' = pat ∧ r = remaining) := by
  intro remaining pat dl
  induction dl generalizing remaining pat with
  | nil =>
    intro r pat' dl' h
    simp only [cutUnit, Except.ok.injEq, Prod.mk.injEq] at h
    obtain ⟨rfl, rfl, rfl⟩ := h
    exact ⟨List.Forall₂.nil, le_refl _, fun _ => ⟨rfl, rfl⟩⟩
  | cons d ds ih =>
    intro r pat' dl' h
    simp only [cutUnit] at h
    split at h
    · split at h
      · exact Except.noConfusion h
      · rename_i r0 p0 ds0 heq
        simp only [Except.ok.injEq, Prod.mk.injEq] at h
        obtain ⟨rfl, rfl, rfl⟩ := h
        obtain ⟨hf, hle, himp⟩ := ih remaining pat heq
        refine ⟨List.Forall₂.cons ⟨rfl, le_refl _⟩ hf, ?_, ?_⟩
        · simp only [sumQty_cons]
          omega
        · intro hsum
          simp only [sumQty_cons] at hsum
          exact himp (by omega)
    · split at h
      · exact Except.noConfusion h
      · split at h
        · rename_i hcnt
          split at h
          · exact Except.noConfusion h
          · rename_i r0 p0 ds0 heq
            simp only [Except.ok.injEq, Prod.mk.injEq] at h
            obtain ⟨rfl, rfl, rfl⟩ := h
            obtain ⟨hf, hle, himp⟩ := ih _ _ heq
            have hminle : min (remaining / d.length) d.quantity ≤ d.quantity :=
              Nat.min_le_right _ _
            refine ⟨List.Forall₂.cons ⟨rfl, Nat.sub_le _ _⟩ hf, ?_, ?_⟩
            · simp only [sumQty_cons]
              omega
            · intro hsum
              exfalso
              simp only [sumQty_cons] at hsum
              omega
        · split at h
          · exact Except.noConfusion h
          · rename_i r0 p0 ds0 heq
            simp only [Except.ok.injEq, Prod.mk.injEq] at h
            obtain ⟨rfl, rfl, rfl⟩ := h
            obtain ⟨hf, hle, himp⟩ := ih remaining pat heq
            refine ⟨List.Forall₂.cons ⟨rfl, le_refl _⟩ hf, ?_, ?_⟩
            · simp only [sumQty_cons]
              omega
            · intro hsum
              simp only [sumQty_cons] at hsum
              exact himp (by omega)

theorem cutUnit_keys :
    ∀ (remaining : ℕ) (pat : List (ℕ × ℕ)) (dl : List DemandRec)
    {r : ℕ} {pat' : List (ℕ × ℕ)} {dl' : List DemandRec},
    (dl.map fun d => d.length).Nodup →
    (pat.map Prod.fst).Nodup →
    (∀ d ∈ dl, d.length ∉ pat.map Prod.fst) →
    cutUnit remaining pat dl = .ok (r, pat', dl') →
    (pat'.map Prod.fst).Nodup ∧
    pat.length ≤ pat'.length ∧
    r + sumLC pat' = remaining + sumLC pat ∧
    (∀ L, plook L pat' + qtyOf L dl' = plook L pat + qtyOf L dl) ∧
    (pat' = pat → r = remaining ∧ ∀ d ∈ dl, d.quantity = 0 ∨ remaining < d.length) := by
  intro remaining pat dl
  induction dl generalizing remaining pat with
  | nil =>
    intro r pat' dl' _ hpnd _ h
    simp only [cutUnit, Except.ok.injEq, Prod.mk.injEq] at h
    obtain ⟨rfl, rfl, rfl⟩ := h
    exact ⟨hpnd, le_refl _, rfl, fun _ => rfl, fun _ => ⟨rfl, fun d hd => absurd hd (List.not_mem_nil d)⟩⟩
  | cons d ds ih =>
    intro r pat' dl' hdnd hpnd hfresh h
    simp only [List.map_cons, List.nodup_cons] at hdnd
    have hfd : d.length ∉ pat.map Prod.fst := hfresh d (List.mem_cons_self d ds)
    have hfds : ∀ d'' ∈ ds, d''.length ∉ pat.map Prod.fst :=
      fun d'' h'' => hfresh d'' (List.mem_cons_of_mem d h'')
    simp only [cutUnit] at h
    split at h
    · rename_i hskip
      split at h
      · exact Except.noConfusion h
      · rename_i r0 p0 ds0 heq
        simp only [Except.ok.injEq, Prod.mk.injEq] at h
        obtain ⟨rfl, rfl, rfl⟩ := h
        obtain ⟨k3, k6, k4, k5, k7⟩ := ih remaining pat hdnd.2 hpnd hfds heq
        refine ⟨k3, k6, k4, ?_, ?_⟩
        · intro L
          have hthis := k5 L
          simp only [qtyOf_cons]
          omega
        · intro hpp
          obtain ⟨hr, hrest⟩ := k7 hpp
          refine ⟨hr, ?_⟩
          intro d'' hd''
          rcases List.mem_cons.mp hd'' with rfl | hd''
          · exact hskip
          · exact hrest d'' hd''
    · rename_i hskip
      split at h
      · exact Except.noConfusion h
      · rename_i hlen
        have hlen' : 0 < d.length := Nat.pos_of_ne_zero hlen
        split at h
        · rename_i hcnt
          split at h
          · exact Except.noConfusion h
          · rename_i r0 p0 ds0 heq
            simp only [Except.ok.injEq, Prod.mk.injEq] at h
            obtain ⟨rfl, rfl, rfl⟩ := h
            set A := min (remaining / d.length) d.quantity with hA
            have hfreshins : dictInsert d.length A pat = pat ++ [(d.length, A)] :=
              dictInsert_of_fresh _ _ _ hfd
            rw [hfreshins] at heq
            have hndins : ((pat ++ [(d.length, A)]).map Prod.fst).Nodup := by
              rw [List.map_append]
              rw [List.nodup_append]
              refine ⟨hpnd, List.nodup_singleton _, ?_⟩
              intro x hx hx2
              simp only [List.map_cons, List.map_nil, List.mem_cons, List.not_mem_nil,
                or_false] at hx2
              exact hfd (hx2 ▸ hx)
            have hfreshds : ∀ d'' ∈ ds, d''.length ∉ (pat ++ [(d.length, A)]).map Prod.fst := by
              intro d'' h''
              rw [List.map_append]
              rw [List.mem_append]
              rintro (hc | hc)
              · exact hfds d'' h'' hc
              · simp only [List.map_cons, List.map_nil, List.mem_cons, List.not_mem_nil,
                  or_false] at hc
                exact hdnd.1 (hc ▸ (List.mem_map.mpr ⟨d'', h'', rfl⟩))
            obtain ⟨k3, k6, k4, k5, k7⟩ := ih _ _ hdnd.2 hndins hfreshds heq
            have hAlen : A * d.length ≤ remaining := by
              calc A * d.length ≤ remaining / d.length * d.length :=
                    Nat.mul_le_mul_right _ (Nat.min_le_left _ _)
                _ ≤ remaining := Nat.div_mul_le_self _ _
            have hAq : A ≤ d.quantity := Nat.min_le_right _ _
            refine ⟨k3, ?_, ?_, ?_, ?_⟩
            · have : pat.length + 1 ≤ (pat ++ [(d.length, A)]).length := by
                simp
              omega
            · rw [sumLC_append] at k4
              have hsingle : sumLC [(d.length, A)] = d.length * A := by
                simp [sumLC]
              rw [hsingle] at k4
              have : A * d.length = d.length * A := Nat.mul_comm _ _
              omega
            · intro L
              have hk5 := k5 L
              simp only [qtyOf_cons]
              by_cases hL : d.length = L
              · subst hL
                rw [plook_append_single_self _ _ _ hfd] at hk5
                rw [plook_eq_zero_of_not_mem _ _ hfd]
                simp
                omega
              · rw [plook_append_single_ne _ _ _ _ hL] at hk5
                simp only [if_neg hL]
                omega
            · intro hpp
              exfalso
              have h1 : pat.length + 1 ≤ (pat ++ [(d.length, A)]).length := by
                simp
              have h2 := k6
              rw [hpp] at h2
              omega
        · rename_i hcnt
          exfalso
          simp only [not_or, not_lt] at hskip
          have h1 : 1 ≤ remaining / d.length :=
            (Nat.one_le_div_iff hlen').mpr hskip.2
          have h2 : 1 ≤ d.quantity := Nat.one_le_iff_ne_zero.mpr hskip.1
          exact hcnt (by omega)

/-! ### Lemmas about plan accumulation and the while loop -/

theorem forall₂_map_length {dl dl' : List DemandRec}
    (hf : List.Forall₂ (fun d d' => d'.length = d.length ∧ d'.quantity ≤ d.quantity) dl dl') :
    (dl'.map fun d => d.length) = dl.map fun d => d.length := by
  induction hf with
  | nil => rfl
  | cons h htail ih => simp [ih, h.1]

theorem length_conds_of_map_eq {dl dl' : List DemandRec} {P : ℕ → Prop}
    (heq : (dl'.map fun d => d.length) = dl.map fun d => d.length)
    (h : ∀ d ∈ dl, P d.length) : ∀ d ∈ dl', P d.length := by
  intro d' hd'
  have hm : d'.length ∈ dl'.map fun d => d.length := List.mem_map.mpr ⟨d', hd', rfl⟩
  rw [heq] at hm
  obtain ⟨d, hd, hlen⟩ := List.mem_map.mp hm
  exact hlen ▸ h d hd

theorem suppliedTo_cons (p : PlanEntry) (ps : List PlanEntry) (L : ℕ) :
    suppliedTo (p :: ps) L = p.count * plook L p.pattern + suppliedTo ps L := by
  simp [suppliedTo]

theorem addPattern_supplied (plans : List PlanEntry) (pat : List (ℕ × ℕ)) (u : ℚ) (w : ℕ)
    (hnd : ∀ e ∈ plans, (e.pattern.map Prod.fst).Nodup) (L : ℕ) :
    suppliedTo (addPattern plans pat u w) L = suppliedTo plans L + plook L pat := by
  induction plans with
  | nil => simp [addPattern, suppliedTo]
  | cons p ps ih =>
    rw [addPattern]
    split
    case isTrue hperm =>
      have hpeq : plook L p.pattern = plook L pat :=
        plook_perm L hperm (hnd p (List.mem_cons_self p ps))
      simp only [suppliedTo_cons]
      rw [hpeq, Nat.succ_mul]
      omega
    case isFalse hperm =>
      simp only [suppliedTo_cons]
      rw [ih fun e he => hnd e (List.mem_cons_of_mem p he)]
      omega

theorem addPattern_forall (Q : List (ℕ × ℕ) → ℕ → Prop)
    (plans : List PlanEntry) (pat : List (ℕ × ℕ)) (u : ℚ) (w : ℕ)
    (hall : ∀ e ∈ plans, Q e.pattern e.waste) (hnew : Q pat w) :
    ∀ e ∈ addPattern plans pat u w, Q e.pattern e.waste := by
  induction plans with
  | nil =>
    intro e he
    rw [addPattern] at he
    rw [List.mem_singleton] at he
    subst he
    exact hnew
  | cons p ps ih =>
    intro e he
    rw [addPattern] at he
    split at he
    · rcases List.mem_cons.mp he with rfl | he
      · exact hall p (List.mem_cons_self p ps)
      · exact hall e (List.mem_cons_of_mem p he)
    · rcases List.mem_cons.mp he with rfl | he
      · exact hall e (List.mem_cons_self e ps)
      · exact ih (fun e' he' => hall e' (List.mem_cons_of_mem p he')) e he

theorem greedyLoop_spec (stock : ℕ) :
    ∀ (fuel : ℕ) (dl : List DemandRec) (st st' : LoopState),
    (dl.map fun d => d.length).Nodup →
    (∀ e ∈ st.plans, EntryInv stock e) →
    greedyLoop stock fuel dl st = .ok (.ok st') →
    (∀ e ∈ st'.plans, EntryInv stock e) ∧
    (∀ L, suppliedTo st'.plans L = suppliedTo st.plans L + qtyOf L dl) ∧
    st.totalStockUsed ≤ st'.totalStockUsed ∧
    ((dl.any fun d => 0 < d.quantity) = true → st.totalStockUsed < st'.totalStockUsed) := by
  intro fuel
  induction fuel with
  | zero =>
    intro dl st st' hnd hinv h
    by_cases hany : (dl.any fun d => 0 < d.quantity) = true
    · simp only [greedyLoop, if_pos hany] at h
      exact Except.noConfusion h
    · simp only [greedyLoop, if_neg hany] at h
      injection h with h
      injection h with h
      subst h
      have hz : ∀ d ∈ dl, d.quantity = 0 := by
        intro d hd
        by_contra hq
        exact hany ((any_qty_iff dl).mpr ⟨d, hd, Nat.pos_of_ne_zero hq⟩)
      refine ⟨hinv, ?_, le_refl _, fun hc => absurd hc hany⟩
      intro L
      rw [qtyOf_eq_zero_of_all_zero hz]
      omega
  | succ fuel ih =>
    intro dl st st' hnd hinv h
    by_cases hany : (dl.any fun d => 0 < d.quantity) = true
    · cases hcu : cutUnit stock [] dl with
      | error c =>
        simp only [greedyLoop, if_pos hany, hcu] at h
        exact Except.noConfusion h
      | ok out =>
        obtain ⟨r, pat, dl'⟩ := out
        by_cases hpe : pat = []
        · simp only [greedyLoop, if_pos hany, hcu, if_pos hpe] at h
          injection h with h
          exact Except.noConfusion h
        · simp only [greedyLoop, if_pos hany, hcu, if_neg hpe] at h
          obtain ⟨hf, hle, himp⟩ := cutUnit_basic stock [] dl hcu
          obtain ⟨k3, k6, k4, k5, k7⟩ :=
            cutUnit_keys stock [] dl hnd List.nodup_nil
              (fun d hd => List.not_mem_nil d.length) hcu
          have hmapeq := forall₂_map_length hf
          have hnewinv : r + sumLC pat = stock ∧ (pat.map Prod.fst).Nodup := by
            refine ⟨?_, k3⟩
            have : sumLC ([] : List (ℕ × ℕ)) = 0 := rfl
            omega
          have hinv' : ∀ e ∈ addPattern st.plans pat
              ((((stock - r : ℕ) : ℚ)) / (stock : ℚ) * 100) r,
              EntryInv stock e :=
            addPattern_forall (fun p w => w + sumLC p = stock ∧ (p.map Prod.fst).Nodup)
              st.plans pat _ r (fun e he => hinv e he) hnewinv
          obtain ⟨i1, i2, i3, i4⟩ := ih dl' _ st' (hmapeq ▸ hnd) hinv' h
          refine ⟨i1, ?_, ?_, ?_⟩
          · intro L
            rw [i2 L]
            rw [addPattern_supplied st.plans pat _ _ (fun e he => (hinv e he).2) L]
            have hk5 := k5 L
            have hpl : plook L ([] : List (ℕ × ℕ)) = 0 := rfl
            omega
          · have i3' : st.totalStockUsed + 1 ≤ st'.totalStockUsed := i3
            omega
          · intro _
            have i3' : st.totalStockUsed + 1 ≤ st'.totalStockUsed := i3
            omega
    · simp only [greedyLoop, if_neg hany] at h
      injection h with h
      injection h with h
      subst h
      have hz : ∀ d ∈ dl, d.quantity = 0 := by
        intro d hd
        by_contra hq
        exact hany ((any_qty_iff dl).mpr ⟨d, hd, Nat.pos_of_ne_zero hq⟩)
      refine ⟨hinv, ?_, le_refl _, fun hc => absurd hc hany⟩
      intro L
      rw [qtyOf_eq_zero_of_all_zero hz]
      omega

theorem greedyLoop_ok (stock : ℕ) :
    ∀ (fuel : ℕ) (dl : List DemandRec) (st : LoopState),
    sumQty dl ≤ fuel →
    (dl.map fun d => d.length).Nodup →
    (∀ d ∈ dl, 0 < d.length ∧ d.length ≤ stock) →
    ∃ st', greedyLoop stock fuel dl st = .ok (.ok st') := by
  intro fuel
  induction fuel with
  | zero =>
    intro dl st hfuel hnd hcond
    have hany : ¬ (dl.any fun d => 0 < d.quantity) = true := by
      rw [any_qty_iff]
      rintro ⟨d, hd, hq⟩
      have := (sumQty_pos_iff dl).mpr ⟨d, hd, hq⟩
      omega
    simp only [greedyLoop, if_neg hany]
    exact ⟨st, rfl⟩
  | succ fuel ih =>
    intro dl st hfuel hnd hcond
    by_cases hany : (dl.any fun d => 0 < d.quantity) = true
    · obtain ⟨⟨r, pat, dl'⟩, heq⟩ :=
        cutUnit_ok_of_pos stock [] dl fun d hd => (hcond d hd).1
      obtain ⟨k3, k6, k4, k5, k7⟩ :=
        cutUnit_keys stock [] dl hnd List.nodup_nil
          (fun d hd => List.not_mem_nil d.length) heq
      have hne : pat ≠ [] := by
        intro hpe
        obtain ⟨hr, hall⟩ := k7 hpe
        obtain ⟨d, hd, hq⟩ := (any_qty_iff dl).mp hany
        rcases hall d hd with h0 | hlt
        · omega
        · have := (hcond d hd).2
          omega
      obtain ⟨hf, hle, himp⟩ := cutUnit_basic stock [] dl heq
      have hlt : sumQty dl' < sumQty dl := by
        rcases Nat.lt_or_ge (sumQty dl') (sumQty dl) with hcase | hcase
        · exact hcase
        · exact absurd (himp (le_antisymm hle hcase)).1 hne
      have hmapeq := forall₂_map_length hf
      have hcond' : ∀ d ∈ dl', 0 < d.length ∧ d.length ≤ stock :=
        @length_conds_of_map_eq dl dl' (fun L => 0 < L ∧ L ≤ stock) hmapeq hcond
      obtain ⟨st'', h2⟩ := ih dl' _ (by omega) (hmapeq ▸ hnd) hcond'
      refine ⟨st'', ?_⟩
      simp only [greedyLoop, if_pos hany, heq, if_neg hne]
      exact h2
    · simp only [greedyLoop, if_neg hany]
      exact ⟨st, rfl⟩

theorem greedyLoop_ne_infeasible (stock : ℕ) :
    ∀ (fuel : ℕ) (dl : List DemandRec) (st : LoopState),
    (dl.map fun d => d.length).Nodup →
    (∀ d ∈ dl, 0 < d.length ∧ d.length ≤ stock) →
    greedyLoop stock fuel dl st ≠ .ok (.error .infeasible) := by
  intro fuel
  induction fuel with
  | zero =>
    intro dl st hnd hcond h
    by_cases hany : (dl.any fun d => 0 < d.quantity) = true
    · simp only [greedyLoop, if_pos hany] at h
      exact Except.noConfusion h
    · simp only [greedyLoop, if_neg hany] at h
      injection h with h
      exact Except.noConfusion h
  | succ fuel ih =>
    intro dl st hnd hcond h
    by_cases hany : (dl.any fun d => 0 < d.quantity) = true
    · cases hcu : cutUnit stock [] dl with
      | error c =>
        simp only [greedyLoop, if_pos hany, hcu] at h
        exact Except.noConfusion h
      | ok out =>
        obtain ⟨r, pat, dl'⟩ := out
        obtain ⟨k3, k6, k4, k5, k7⟩ :=
          cutUnit_keys stock [] dl hnd List.nodup_nil
            (fun d hd => List.not_mem_nil d.length) hcu
        have hne : pat ≠ [] := by
          intro hpe
          obtain ⟨hr, hall⟩ := k7 hpe
          obtain ⟨d, hd, hq⟩ := (any_qty_iff dl).mp hany
          rcases hall d hd with h0 | hlt
          · omega
          · have := (hcond d hd).2
            omega
        simp only [greedyLoop, if_pos hany, hcu, if_neg hne] at h
        obtain ⟨hf, _, _⟩ := cutUnit_basic stock [] dl hcu
        have hmapeq := forall₂_map_length hf
        exact ih dl' _ (hmapeq ▸ hnd)
          (@length_conds_of_map_eq dl dl' (fun L => 0 < L ∧ L ≤ stock) hmapeq hcond) h
    · simp only [greedyLoop, if_neg hany] at h
      injection h with h
      exact Except.noConfusion h

theorem greedyLoop_ne_fuelOut (stock : ℕ) :
    ∀ (fuel : ℕ) (dl : List DemandRec) (st : LoopState),
    sumQty dl ≤ fuel →
    greedyLoop stock fuel dl st ≠ .error .fuelOut := by
  intro fuel
  induction fuel with
  | zero =>
    intro dl st hfuel h
    have hany : ¬ (dl.any fun d => 0 < d.quantity) = true := by
      rw [any_qty_iff]
      rintro ⟨d, hd, hq⟩
      have := (sumQty_pos_iff dl).mpr ⟨d, hd, hq⟩
      omega
    simp only [greedyLoop, if_neg hany] at h
    exact Except.noConfusion h
  | succ fuel ih =>
    intro dl st hfuel h
    by_cases hany : (dl.any fun d => 0 < d.quantity) = true
    · cases hcu : cutUnit stock [] dl with
      | error c =>
        simp only [greedyLoop, if_pos hany, hcu] at h
        injection h with h
        have hcz := cutUnit_error_eq stock [] dl hcu
        rw [h] at hcz
        exact Crash.noConfusion hcz
      | ok out =>
        obtain ⟨r, pat, dl'⟩ := out
        by_cases hpe : pat = []
        · simp only [greedyLoop, if_pos hany, hcu, if_pos hpe] at h
          exact Except.noConfusion h
        · simp only [greedyLoop, if_pos hany, hcu, if_neg hpe] at h
          obtain ⟨hf, hle, himp⟩ := cutUnit_basic stock [] dl hcu
          have hlt : sumQty dl' < sumQty dl := by
            rcases Nat.lt_or_ge (sumQty dl') (sumQty dl) with hcase | hcase
            · exact hcase
            · exact absurd (himp (le_antisymm hle hcase)).1 hpe
          exact ih dl' _ (by omega) h
    · simp only [greedyLoop, if_neg hany] at h
      exact Except.noConfusion h

/-! ### Lemmas about the working list and the numeric core -/

theorem qtyOf_eq_zero_of_not_key {L : ℕ} {dl : List DemandRec}
    (h : L ∉ dl.map fun d => d.length) : qtyOf L dl = 0 := by
  induction dl with
  | nil => rfl
  | cons d ds ih =>
    simp only [List.map_cons, List.mem_cons, not_or] at h
    rw [qtyOf_cons, if_neg fun hh => h.1 hh.symm, ih h.2]

theorem qtyOf_demandList {demands : DemandSet} (hnd : (demands.map Prod.fst).Nodup)
    {L q : ℕ} (hmem : (L, q) ∈ demands) :
    qtyOf L (demands.map fun p => DemandRec.mk p.1 p.2) = q := by
  induction demands with
  | nil => cases hmem
  | cons p ps ih =>
    simp only [List.map_cons, List.nodup_cons] at hnd
    rw [List.map_cons, qtyOf_cons]
    rcases List.mem_cons.mp hmem with heq | hmem'
    · obtain rfl := heq.symm
      have hz : qtyOf L (ps.map fun p => DemandRec.mk p.1 p.2) = 0 := by
        apply qtyOf_eq_zero_of_not_key
        intro hc
        obtain ⟨d, hd, he⟩ := List.mem_map.mp hc
        obtain ⟨p', hp', rfl⟩ := List.mem_map.mp hd
        exact hnd.1 (he ▸ List.mem_map.mpr ⟨p', hp', rfl⟩)
      simp [hz]
    · have hLkeys : L ∈ ps.map Prod.fst := List.mem_map.mpr ⟨(L, q), hmem', rfl⟩
      have hne : p.1 ≠ L := fun hh => hnd.1 (hh ▸ hLkeys)
      simp only [if_neg hne]
      rw [ih hnd.2 hmem']
      omega

theorem workingList_perm (demands : DemandSet) :
    (workingList demands).Perm (demands.map fun p => DemandRec.mk p.1 p.2) :=
  insSortBy_perm _ _

theorem demandList_map_length (demands : DemandSet) :
    ((demands.map fun p => DemandRec.mk p.1 p.2).map fun d => d.length) =
      demands.map Prod.fst := by
  rw [List.map_map]
  rfl

theorem workingList_lengths_perm (demands : DemandSet) :
    ((workingList demands).map fun d => d.length).Perm (demands.map Prod.fst) := by
  have h1 := (workingList_perm demands).map fun d => d.length
  rw [demandList_map_length] at h1
  exact h1

theorem workingList_nodup {demands : DemandSet}
    (hnd : (demands.map Prod.fst).Nodup) :
    ((workingList demands).map fun d => d.length).Nodup :=
  (workingList_lengths_perm demands).nodup_iff.mpr hnd

theorem workingList_conds {demands : DemandSet} {P : ℕ → Prop}
    (hpos : ∀ p ∈ demands, P p.1) : ∀ d ∈ workingList demands, P d.length := by
  intro d hd
  have hd' : d ∈ demands.map fun p => DemandRec.mk p.1 p.2 :=
    (workingList_perm demands).mem_iff.mp hd
  obtain ⟨p, hp, rfl⟩ := List.mem_map.mp hd'
  exact hpos p hp

theorem qtyOf_workingList {demands : DemandSet} (hnd : (demands.map Prod.fst).Nodup)
    {L q : ℕ} (hmem : (L, q) ∈ demands) : qtyOf L (workingList demands) = q :=
  (qtyOf_perm L (workingList_perm demands)).trans (qtyOf_demandList hnd hmem)

theorem workingList_any {demands : DemandSet} {L q : ℕ} (hmem : (L, q) ∈ demands)
    (hq : 0 < q) : ((workingList demands).any fun d => 0 < d.quantity) = true := by
  rw [any_qty_iff]
  refine ⟨DemandRec.mk L q, ?_, hq⟩
  exact (workingList_perm demands).mem_iff.mpr (List.mem_map.mpr ⟨(L, q), hmem, rfl⟩)

theorem greedyCore_ok_inv {stock : ℕ} {demands : DemandSet} {c : CoreResult}
    (h : greedyCore stock demands = .ok (.ok c)) :
    ∃ st : LoopState,
      greedyLoop stock (sumQty (workingList demands)) (workingList demands) ⟨[], 0, 0⟩ =
        .ok (.ok st) ∧
      c.plans = st.plans ∧
      c.total_stock_used = st.totalStockUsed ∧
      c.total_used_length = st.totalUsedLength ∧
      st.totalStockUsed * stock ≠ 0 ∧
      c.total_utilization_q =
        (st.totalUsedLength : ℚ) / ((st.totalStockUsed * stock : ℕ) : ℚ) * 100 ∧
      c.total_waste = st.totalStockUsed * stock - st.totalUsedLength := by
  rw [greedyCore] at h
  cases hfind : demands.find? fun p => decide (stock < p.1) with
  | some p =>
    rw [hfind] at h
    injection h with h
    exact Except.noConfusion h
  | none =>
    rw [hfind] at h
    cases hloop : greedyLoop stock (sumQty (workingList demands))
        (workingList demands) ⟨[], 0, 0⟩ with
    | error cr =>
      rw [hloop] at h
      exact Except.noConfusion h
    | ok inner =>
      cases inner with
      | error e =>
        rw [hloop] at h
        injection h with h
        exact Except.noConfusion h
      | ok st =>
        rw [hloop] at h
        dsimp only at h
        by_cases hz : st.totalStockUsed * stock = 0
        · rw [if_pos hz] at h
          exact Except.noConfusion h
        · rw [if_neg hz] at h
          injection h with h
          injection h with h
          subst h
          exact ⟨st, rfl, rfl, rfl, rfl, hz, rfl, rfl⟩

/- Concrete runs are evaluated by the kernel: the Rat operations are sealed
behind `irreducible` for elaboration performance in ordinary developments,
which this file lifts so `decide`/`rfl` can evaluate the embedding. -/
attribute [local semireducible] Rat.add Rat.sub Rat.mul Rat.inv

/-! ### Claim theorems -/

/-- C1: Demand conservation.  For every stock_length > 0 and every non-empty
demand set (unique keys, as a dict guarantees) whose lengths are positive and
do not exceed stock_length and whose quantities are positive, the optimizer
succeeds, and for every demand (L, q), summing repeat_count × count-of-L over
every plan entry whose pattern contains L yields exactly q. -/
theorem demand_conservation (stock : ℕ) (demands : DemandSet)
    (hstock : 0 < stock) (hne : demands ≠ [])
    (hnd : (demands.map Prod.fst).Nodup)
    (hpos : ∀ p ∈ demands, 0 < p.1 ∧ p.1 ≤ stock ∧ 0 < p.2) :
    greedyCore stock demands = .ok (.ok (coreOut stock demands)) ∧
    greedy_cutting_optimization stock demands =
      .ok (.ok (formatResult (coreOut stock demands))) ∧
    ∀ p ∈ demands, suppliedTo (coreOut stock demands).plans p.1 = p.2 := by
  have hfind : (demands.find? fun p => decide (stock < p.1)) = none := by
    rw [List.find?_eq_none]
    intro p hp
    simp only [decide_eq_true_eq]
    have := (hpos p hp).2.1
    omega
  obtain ⟨st', hloop⟩ := greedyLoop_ok stock (sumQty (workingList demands))
    (workingList demands) ⟨[], 0, 0⟩ (le_refl _) (workingList_nodup hnd)
    (@workingList_conds demands (fun L => 0 < L ∧ L ≤ stock)
      fun p hp => ⟨(hpos p hp).1, (hpos p hp).2.1⟩)
  obtain ⟨hinv', hcons, hmono, hstrict⟩ := greedyLoop_spec stock _ (workingList demands)
    ⟨[], 0, 0⟩ st' (workingList_nodup hnd) (fun e he => absurd he (List.not_mem_nil e)) hloop
  obtain ⟨p₀, hp₀⟩ := List.exists_mem_of_ne_nil demands hne
  have hany : ((workingList demands).any fun d => 0 < d.quantity) = true :=
    workingList_any hp₀ (hpos p₀ hp₀).2.2
  have hused : 0 < st'.totalStockUsed := hstrict hany
  have hz : ¬ st'.totalStockUsed * stock = 0 := by
    have := Nat.mul_pos hused hstock
    omega
  have hcore : greedyCore stock demands = .ok (.ok
      { plans := st'.plans
        total_stock_used := st'.totalStockUsed
        total_used_length := st'.totalUsedLength
        total_utilization_q :=
          (st'.totalUsedLength : ℚ) / ((st'.totalStockUsed * stock : ℕ) : ℚ) * 100
        total_waste := st'.totalStockUsed * stock - st'.totalUsedLength }) := by
    rw [greedyCore, hfind, hloop]
    dsimp only
    rw [if_neg hz]
  have hcoreOut : coreOut stock demands =
      { plans := st'.plans
        total_stock_used := st'.totalStockUsed
        total_used_length := st'.totalUsedLength
        total_utilization_q :=
          (st'.totalUsedLength : ℚ) / ((st'.totalStockUsed * stock : ℕ) : ℚ) * 100
        total_waste := st'.totalStockUsed * stock - st'.totalUsedLength } := by
    rw [coreOut, hcore]
  refine ⟨?_, ?_, ?_⟩
  · rw [hcore, hcoreOut]
  · rw [greedy_cutting_optimization, hcore, hcoreOut]
  · intro p hp
    have hq := qtyOf_workingList hnd hp
    have hc := hcons p.1
    have h0 : suppliedTo (⟨[], 0, 0⟩ : LoopState).plans p.1 = 0 := rfl
    rw [hcoreOut]
    dsimp only
    omega

/-- C1 witness: the conservation theorem applied to stock 1000 and demands
600×1, 400×1, instantiated at the demand (600, 1). -/
theorem demand_conservation_witness :
    greedyCore 1000 [(600, 1), (400, 1)] =
      .ok (.ok (coreOut 1000 [(600, 1), (400, 1)])) ∧
    greedy_cutting_optimization 1000 [(600, 1), (400, 1)] =
      .ok (.ok (formatResult (coreOut 1000 [(600, 1), (400, 1)]))) ∧
    suppliedTo (coreOut 1000 [(600, 1), (400, 1)]).plans 600 = 1 :=
  ⟨(demand_conservation 1000 [(600, 1), (400, 1)]
      (by decide) (by decide) (by decide) (by decide)).1,
   (demand_conservation 1000 [(600, 1), (400, 1)]
      (by decide) (by decide) (by decide) (by decide)).2.1,
   (demand_conservation 1000 [(600, 1), (400, 1)]
      (by decide) (by decide) (by decide) (by decide)).2.2 (600, 1) (by decide)⟩

/-- C6: Waste arithmetic.  In every feasible run, every plan entry satisfies
waste = stock_length − Σ(length × count over its pattern), waste ≥ 0, and
Σ(length × count) ≤ stock_length. -/
theorem waste_arithmetic (stock : ℕ) (demands : DemandSet)
    (hnd : (demands.map Prod.fst).Nodup) (c : CoreResult)
    (h : greedyCore stock demands = .ok (.ok c)) :
    ∀ e ∈ c.plans, (e.waste : ℤ) = (stock : ℤ) - (sumLC e.pattern : ℤ) ∧
      (0 : ℤ) ≤ (e.waste : ℤ) ∧ sumLC e.pattern ≤ stock := by
  obtain ⟨st, hloop, hplans, _⟩ := greedyCore_ok_inv h
  obtain ⟨hinv, _, _, _⟩ := greedyLoop_spec stock _ _ _ _ (workingList_nodup hnd)
    (fun e he => absurd he (List.not_mem_nil e)) hloop
  intro e he
  rw [hplans] at he
  obtain ⟨heq, _⟩ := hinv e he
  refine ⟨by omega, by omega, by omega⟩

/-- C6 witness: the waste theorem applied to stock 1000 and demands
600×1, 400×1, instantiated at the single plan entry of that run (pattern
600×1 + 400×1, repeat count 1, utilization 100, waste 0). -/
theorem waste_arithmetic_witness :
    ((PlanEntry.mk [(600, 1), (400, 1)] 1 100 0).waste : ℤ) =
      (1000 : ℤ) - (sumLC (PlanEntry.mk [(600, 1), (400, 1)] 1 100 0).pattern : ℤ) ∧
    (0 : ℤ) ≤ ((PlanEntry.mk [(600, 1), (400, 1)] 1 100 0).waste : ℤ) ∧
    sumLC (PlanEntry.mk [(600, 1), (400, 1)] 1 100 0).pattern ≤ 1000 :=
  waste_arithmetic 1000 [(600, 1), (400, 1)] (by decide)
    (coreOut 1000 [(600, 1), (400, 1)]) rfl
    (PlanEntry.mk [(600, 1), (400, 1)] 1 100 0) (by decide)

/-- C9: the InfeasibleDemand branch (empty pattern after scanning all
records) is unreachable whenever the demand set is non-empty with positive
lengths none exceeding the stock length: the optimizer never returns the
infeasible error under that precondition. -/
theorem infeasible_unreachable (stock : ℕ) (demands : DemandSet)
    (hne : demands ≠ []) (hnd : (demands.map Prod.fst).Nodup)
    (hlen : ∀ p ∈ demands, 0 < p.1 ∧ p.1 ≤ stock) :
    greedy_cutting_optimization stock demands ≠ .ok (.error .infeasible) := by
  intro h
  rw [greedy_cutting_optimization] at h
  cases hcore : greedyCore stock demands with
  | error cr =>
    rw [hcore] at h
    exact Except.noConfusion h
  | ok inner =>
    cases inner with
    | ok c =>
      rw [hcore] at h
      dsimp only at h
      injection h with h
      exact Except.noConfusion h
    | error e =>
      rw [hcore] at h
      dsimp only at h
      injection h with h
      injection h with h
      subst h
      rw [greedyCore] at hcore
      cases hfind : demands.find? fun p => decide (stock < p.1) with
      | some p =>
        rw [hfind] at hcore
        dsimp only at hcore
        injection hcore with hcore
        injection hcore with hcore
        exact ErrMsg.noConfusion hcore
      | none =>
        rw [hfind] at hcore
        dsimp only at hcore
        cases hloop : greedyLoop stock (sumQty (workingList demands))
            (workingList demands) ⟨[], 0, 0⟩ with
        | error cr =>
          rw [hloop] at hcore
          exact Except.noConfusion hcore
        | ok inner2 =>
          cases inner2 with
          | error e2 =>
            rw [hloop] at hcore
            dsimp only at hcore
            injection hcore with hcore
            injection hcore with hcore
            subst hcore
            exact greedyLoop_ne_infeasible stock _ _ _ (workingList_nodup hnd)
              (@workingList_conds demands (fun L => 0 < L ∧ L ≤ stock) hlen) hloop
          | ok st =>
            rw [hloop] at hcore
            dsimp only at hcore
            by_cases hz : st.totalStockUsed * stock = 0
            · rw [if_pos hz] at hcore
              exact Except.noConfusion hcore
            · rw [if_neg hz] at hcore
              injection hcore with hcore
              exact Except.noConfusion hcore

/-- C9 witness: the unreachability theorem applied to stock 1000 and demands
600×1, 400×1. -/
theorem infeasible_unreachable_witness :
    greedy_cutting_optimization 1000 [(600, 1), (400, 1)] ≠ .ok (.error .infeasible) :=
  infeasible_unreachable 1000 [(600, 1), (400, 1)] (by decide) (by decide) (by decide)

/-- C7: termination of the greedy loop.  The loop is embedded with fuel equal
to the total requested quantity; because every iteration that does not
return an error cuts at least one piece (strictly decreasing the sum of
remaining quantities), the fuel bound is never reached, for any stock length
and any demand list whatsoever: the optimizer never evaluates to the
fuel-exhaustion marker, i.e. the source's while loop ends after at most
sum-of-quantities iterations, with every remaining_quantity equal to zero at
exit (the loop condition). -/
theorem loop_terminates (stock : ℕ) (demands : DemandSet) :
    greedy_cutting_optimization stock demands ≠ .error .fuelOut := by
  intro h
  rw [greedy_cutting_optimization] at h
  cases hcore : greedyCore stock demands with
  | ok inner =>
    cases inner with
    | ok c =>
      rw [hcore] at h
      dsimp only at h
      exact Except.noConfusion h
    | error e =>
      rw [hcore] at h
      dsimp only at h
      exact Except.noConfusion h
  | error cr =>
    rw [hcore] at h
    dsimp only at h
    injection h with h
    subst h
    rw [greedyCore] at hcore
    cases hfind : demands.find? fun p => decide (stock < p.1) with
    | some p =>
      rw [hfind] at hcore
      dsimp only at hcore
      exact Except.noConfusion hcore
    | none =>
      rw [hfind] at hcore
      dsimp only at hcore
      cases hloop : greedyLoop stock (sumQty (workingList demands))
          (workingList demands) ⟨[], 0, 0⟩ with
      | error cr2 =>
        rw [hloop] at hcore
        dsimp only at hcore
        injection hcore with hcore
        subst hcore
        exact greedyLoop_ne_fuelOut stock _ _ _ (le_refl _) hloop
      | ok inner2 =>
        cases inner2 with
        | error e2 =>
          rw [hloop] at hcore
          dsimp only at hcore
          exact Except.noConfusion hcore
        | ok st =>
          rw [hloop] at hcore
          dsimp only at hcore
          by_cases hz : st.totalStockUsed * stock = 0
          · rw [if_pos hz] at hcore
            injection hcore with hcore
            exact Crash.noConfusion hcore
          · rw [if_neg hz] at hcore
            exact Except.noConfusion hcore

/-- C7 witness: the termination theorem applied to stock 3800 and demand
355×10. -/
theorem loop_terminates_witness :
    greedy_cutting_optimization 3800 [(355, 10)] ≠ .error .fuelOut :=
  loop_terminates 3800 [(355, 10)]

/-- C2: a demand set containing a length strictly greater than the stock
length makes the optimizer return the oversized-demand error, reporting the
offending length (the first such in dict order) and the stock length, and
nothing else: no plan, partial or otherwise. -/
theorem oversized_rejected (stock : ℕ) (demands : DemandSet)
    (h : ∃ p ∈ demands, stock < p.1) :
    stock < firstOversized stock demands ∧
    firstOversized stock demands ∈ demands.map Prod.fst ∧
    greedy_cutting_optimization stock demands =
      .ok (.error (.oversized (firstOversized stock demands) stock)) := by
  have hsome : (demands.find? fun p => decide (stock < p.1)).isSome = true := by
    rw [List.find?_isSome]
    obtain ⟨p, hp, hlt⟩ := h
    exact ⟨p, hp, by simpa using hlt⟩
  obtain ⟨p₀, hfind⟩ := Option.isSome_iff_exists.mp hsome
  have hp₀lt : stock < p₀.1 := by simpa using List.find?_some hfind
  have hp₀mem : p₀ ∈ demands := List.mem_of_find?_eq_some hfind
  have hfo : firstOversized stock demands = p₀.1 := by
    rw [firstOversized, hfind]
  have hcore : greedyCore stock demands = .ok (.error (.oversized p₀.1 stock)) := by
    rw [greedyCore, hfind]
  refine ⟨hfo ▸ hp₀lt, hfo ▸ List.mem_map.mpr ⟨p₀, hp₀mem, rfl⟩, ?_⟩
  rw [greedy_cutting_optimization, hcore, hfo]

/-- C2 witness: the oversize theorem applied to stock 500 and demand 600×1. -/
theorem oversized_rejected_witness :
    500 < firstOversized 500 [(600, 1)] ∧
    firstOversized 500 [(600, 1)] ∈ ([(600, 1)] : DemandSet).map Prod.fst ∧
    greedy_cutting_optimization 500 [(600, 1)] =
      .ok (.error (.oversized (firstOversized 500 [(600, 1)]) 500)) :=
  oversized_rejected 500 [(600, 1)] ⟨(600, 1), by decide, by decide⟩

/-- Helper: the numeric core on an empty demand dict reaches line 102 with
total_stock_used = 0 and raises ZeroDivisionError. -/
theorem greedyCore_empty (stock : ℕ) : greedyCore stock [] = .error .zeroDiv := by
  rw [greedyCore]
  have h1 : (([] : DemandSet).find? fun p => decide (stock < p.1)) = none := rfl
  rw [h1]
  have h2 : greedyLoop stock (sumQty (workingList [])) (workingList []) ⟨[], 0, 0⟩ =
      .ok (.ok ⟨[], 0, 0⟩) := rfl
  rw [h2]
  dsimp only
  rw [if_pos (Nat.zero_mul stock)]

/-- C3 (amended): neither the optimizer nor the search has an empty-demand
check: invoked with an empty demand dict the optimizer raises
ZeroDivisionError at line 102 (the crash value of the embedding), for every
stock length, and the search over any non-empty range (min ≤ max, positive
step) propagates that crash from its first candidate; no explicit error
value, and in particular no empty-demand-set error, is returned —
emptiness is guarded by the UI caller before the core is invoked. -/
theorem empty_demand_crashes :
    (∀ stock : ℕ, greedy_cutting_optimization stock [] = .error .zeroDiv) ∧
    ∀ minL maxL stepL : ℕ, minL ≤ maxL → 1 ≤ stepL →
      find_optimal_stock_length [] minL maxL stepL = .error .zeroDiv := by
  constructor
  · intro stock
    rw [greedy_cutting_optimization, greedyCore_empty]
  · intro minL maxL stepL hminmax hstep
    obtain ⟨n, hn⟩ : ∃ n, (maxL + 1 - minL + stepL - 1) / stepL = n + 1 := by
      have h1 : stepL ≤ maxL + 1 - minL + stepL - 1 := by omega
      have h2 : 1 ≤ (maxL + 1 - minL + stepL - 1) / stepL :=
        (Nat.one_le_div_iff (by omega)).mpr h1
      exact ⟨(maxL + 1 - minL + stepL - 1) / stepL - 1, by omega⟩
    have hg : greedy_cutting_optimization minL [] = .error .zeroDiv := by
      rw [greedy_cutting_optimization, greedyCore_empty]
    rw [find_optimal_stock_length, pyRange, hn, List.range'_succ]
    simp only [collectResults, hg]

/-- C3 witness: the crash theorem applied to stock length 1000 and to the
search over 1000..1200 step 100, both on the empty demand set. -/
theorem empty_demand_crashes_witness :
    greedy_cutting_optimization 1000 [] = .error .zeroDiv ∧
    find_optimal_stock_length [] 1000 1200 100 = .error .zeroDiv :=
  ⟨empty_demand_crashes.1 1000,
   empty_demand_crashes.2 1000 1200 100 (by decide) (by decide)⟩

/-- C3 counterexample: at stock length 1000 and the empty demand set the
optimizer evaluates to the ZeroDivisionError crash, not to any returned
(explicit) error value such as an empty-demand-set error. -/
theorem empty_demand_counterexample :
    greedy_cutting_optimization 1000 [] = .error Crash.zeroDiv := rfl

/-- C10: calling the search with min_length > max_length (and a positive
step, per its contract) iterates over an empty candidate range and returns
the no-feasible-plan-in-range error, not a distinct invalid-range error and
not a result. -/
theorem invalid_range_noFeasible (demands : DemandSet) (minL maxL stepL : ℕ)
    (hstep : 1 ≤ stepL) (hrange : maxL < minL) :
    find_optimal_stock_length demands minL maxL stepL = .ok (.error .noFeasible) := by
  have hempty : pyRange minL (maxL + 1) stepL = [] := by
    rw [pyRange]
    have h1 : maxL + 1 - minL = 0 := by omega
    rw [h1]
    have h2 : (0 + stepL - 1) / stepL = 0 := by
      apply Nat.div_eq_of_lt
      omega
    rw [h2]
    rfl
  rw [find_optimal_stock_length, hempty]
  rfl

/-- C10 witness: the invalid-range theorem applied to demands 100×1 and the
range min 10, max 5, step 1. -/
theorem invalid_range_noFeasible_witness :
    find_optimal_stock_length [(100, 1)] 10 5 1 = .ok (.error .noFeasible) :=
  invalid_range_noFeasible [(100, 1)] 10 5 1 (by decide) (by decide)

/-- C8: frame property.  Every mutation the optimizer performs targets its
private working copy (the fresh records of lines 55-56); the caller's demand
dict receives no write in `greedy_cutting_optimization` nor in
`find_optimal_stock_length` (which additionally hands each optimizer run a
fresh `demands.copy()`), so its post-call value equals its input value in
both the success and the error cases. -/
theorem caller_demands_unchanged (stock : ℕ) (demands : DemandSet)
    (minL maxL stepL : ℕ) :
    (greedyCall stock demands).2 = demands ∧
    (searchCall demands minL maxL stepL).2 = demands :=
  ⟨rfl, rfl⟩

/-- Totality of the ranking order of ST.py line 137. -/
theorem searchKeyLe_total (a b : SearchResult) : searchKeyLe a b ∨ searchKeyLe b a := by
  unfold searchKeyLe
  rcases lt_trichotomy (pUtil a) (pUtil b) with h | h | h
  · right
    left
    exact h
  · rcases Nat.le_total a.res.total_stock_used b.res.total_stock_used with hn | hn
    · left
      right
      exact ⟨h, hn⟩
    · right
      right
      exact ⟨h.symm, hn⟩
  · left
    left
    exact h

/-- Transitivity of the ranking order of ST.py line 137. -/
theorem searchKeyLe_trans (a b c : SearchResult) :
    searchKeyLe a b → searchKeyLe b c → searchKeyLe a c := by
  unfold searchKeyLe
  rintro (h1 | ⟨h1, h1'⟩) (h2 | ⟨h2, h2'⟩)
  · exact Or.inl (lt_trans h2 h1)
  · left
    rw [← h2]
    exact h1
  · left
    rw [h1]
    exact h2
  · exact Or.inr ⟨h1.trans h2, h1'.trans h2'⟩

/-- C4 (amended): the optimizer returns its utilization fields as
pre-formatted 2-decimal percentage strings: for every feasible run the
returned total_utilization is the pctString rendering of the numeric total
utilization computed at line 102, and each returned plan entry's
utilization is the pctString rendering of that entry's numeric utilization;
the numeric percentage values themselves are not part of the returned
value. -/
theorem utilization_is_formatted_string (stock : ℕ) (demands : DemandSet)
    (c : CoreResult) (h : greedyCore stock demands = .ok (.ok c)) :
    retTotalUtil stock demands = some (pctString c.total_utilization_q) ∧
    greedy_cutting_optimization stock demands = .ok (.ok (formatResult c)) ∧
    (formatResult c).total_utilization = pctString c.total_utilization_q ∧
    ∀ fp ∈ (formatResult c).cutting_plans,
      ∃ p ∈ c.plans, fp.utilization = pctString p.utilization := by
  have hg : greedy_cutting_optimization stock demands = .ok (.ok (formatResult c)) := by
    rw [greedy_cutting_optimization, h]
  refine ⟨?_, hg, rfl, ?_⟩
  · rw [retTotalUtil, hg]
    rfl
  · intro fp hfp
    have hfp' : fp ∈ c.plans.map formatPlan := hfp
    obtain ⟨p, hp, rfl⟩ := List.mem_map.mp hfp'
    exact ⟨p, hp, rfl⟩

/-- C4 witness: the formatting theorem applied to stock 3800 and demand
355×10. -/
theorem utilization_is_formatted_string_witness :
    retTotalUtil 3800 [(355, 10)] =
      some (pctString (coreOut 3800 [(355, 10)]).total_utilization_q) ∧
    greedy_cutting_optimization 3800 [(355, 10)] =
      .ok (.ok (formatResult (coreOut 3800 [(355, 10)]))) ∧
    (formatResult (coreOut 3800 [(355, 10)])).total_utilization =
      pctString (coreOut 3800 [(355, 10)]).total_utilization_q :=
  ⟨(utilization_is_formatted_string 3800 [(355, 10)] (coreOut 3800 [(355, 10)]) rfl).1,
   (utilization_is_formatted_string 3800 [(355, 10)] (coreOut 3800 [(355, 10)]) rfl).2.1,
   (utilization_is_formatted_string 3800 [(355, 10)] (coreOut 3800 [(355, 10)]) rfl).2.2.1⟩

/-- C4 counterexample: two feasible runs (stock 53524 and stock 26760, both
on the demand 1mm × 100000) have different exact total utilizations
(1250000/13381 ≈ 93.4160% versus 62500/669 ≈ 93.4230%) yet return the
identical pre-formatted string "93.42%" as their total_utilization: the
returned field is a rounded string, not the numeric percentage value. -/
theorem utilization_string_counterexample :
    retTotalUtil 53524 [(1, 100000)] = some "93.42%" ∧
    retTotalUtil 26760 [(1, 100000)] = some "93.42%" ∧
    coreUtilQ 53524 [(1, 100000)] = some (1250000 / 13381) ∧
    coreUtilQ 26760 [(1, 100000)] = some (62500 / 669) ∧
    (1250000 / 13381 : ℚ) ≠ (62500 / 669 : ℚ) :=
  ⟨by decide, by decide, by decide, by decide, by decide⟩

/-- C5 (amended): a successful search returns its results sorted by the key
of ST.py line 137: primary key the utilization value parsed back from the
rounded 2-decimal total_utilization string, descending; tie-break
total_stock_used ascending.  Because the key is the rounded rendering, not
the exact percentage, results whose exact utilizations differ but round to
the same two decimals are ordered by the tie-break alone. -/
theorem search_ranking_sorted (demands : DemandSet) (minL maxL stepL : ℕ)
    (rs : List SearchResult)
    (h : find_optimal_stock_length demands minL maxL stepL = .ok (.ok rs)) :
    rs.Pairwise searchKeyLe := by
  rw [find_optimal_stock_length] at h
  cases hc : collectResults demands (pyRange minL (maxL + 1) stepL) with
  | error c =>
    rw [hc] at h
    exact Except.noConfusion h
  | ok results =>
    rw [hc] at h
    dsimp only at h
    by_cases hres : results = []
    · rw [if_pos hres] at h
      injection h with h
      exact Except.noConfusion h
    · rw [if_neg hres] at h
      injection h with h
      injection h with h
      subst h
      exact pairwise_insSortBy searchKeyLe_total searchKeyLe_trans results

/-- C5 witness: the sortedness theorem applied to the search over demand
355×10 and candidate range 1000..1200 step 100 (all three candidates are
feasible). -/
theorem search_ranking_sorted_witness :
    (searchOut [(355, 10)] 1000 1200 100).Pairwise searchKeyLe :=
  search_ranking_sorted [(355, 10)] 1000 1200 100
    (searchOut [(355, 10)] 1000 1200 100) rfl

/-- C5 counterexample: searching demand 1mm × 100000 over the candidates
26760 and 53524 (range 26760..53524, step 26764), both candidates format to
"93.42%", so the parsed keys tie and the tie-break (fewer stock units) puts
stock 53524 first — yet its exact total utilization 1250000/13381 is
strictly smaller than that of stock 26760, 62500/669.  The ranking is
therefore not performed on the exact numeric percentage: the first element
does not have maximal exact total utilization. -/
theorem search_ranking_counterexample :
    searchLengths [(1, 100000)] 26760 53524 26764 = some [53524, 26760] ∧
    coreUtilQ 53524 [(1, 100000)] = some (1250000 / 13381) ∧
    coreUtilQ 26760 [(1, 100000)] = some (62500 / 669) ∧
    (1250000 / 13381 : ℚ) < 62500 / 669 :=
  ⟨by decide, by decide, by decide, by decide⟩

end ST
